import Mathlib

/-!
Shallow embedding of `combine_etf_weights.py` (ETF component-weight combiner).

Conventions of the embedding:
* Python floats are modelled by `ℚ` (the script only adds, multiplies and
  divides finitely many finite values, so the field operations agree).
* A pandas `Series` / `DataFrame` column is a `List`.
* A weight cell after `pd.to_numeric(..., errors="coerce")` is an
  `Option ℚ` — `none` models `NaN` (an unparseable cell).
* A `Dict[str, DataFrame]` (insertion ordered, unique keys) is a
  `List (String × _)`; key uniqueness is carried as a `Nodup` hypothesis
  where a theorem needs it.
* `pandas.sort_values(ascending=False)` is implemented by pandas as an
  ascending argsort whose index array is then reversed
  (`pandas.core.sorting.nargsort`); we model it as a stable ascending
  insertion sort followed by `List.reverse`.
* `DataFrame.groupby(code, as_index=False).sum()` sorts the group keys
  (default `sort=True`); string order is code-point lexicographic.
-/

namespace CombineEtf

/-- Stable insertion of `x` into `l`: walk past elements strictly below `x`
per `lt`, insert `x` before the first element not below it. -/
def insertByLt {α : Type} (lt : α → α → Bool) (x : α) : List α → List α
  | [] => [x]
  | y :: ys => if lt y x then y :: insertByLt lt x ys else x :: y :: ys

/-- Stable ascending insertion sort with strict comparison `lt`;
elements comparing equal keep their original relative order. -/
def sortByLt {α : Type} (lt : α → α → Bool) : List α → List α
  | [] => []
  | x :: xs => insertByLt lt x (sortByLt lt xs)

/-- Code-point lexicographic strict order on character lists
(Python string `<`). -/
def lexLt : List Char → List Char → Bool
  | [], [] => false
  | [], _ :: _ => true
  | _ :: _, [] => false
  | a :: as, b :: bs => if a < b then true else if b < a then false else lexLt as bs

/-- Python string `<` on the underlying character lists. -/
def strLt (a b : String) : Bool := lexLt a.data b.data

/-- First-occurrence deduplication: the key order produced by a Python dict
comprehension over a list with repeated elements. -/
def dedupFirst {α : Type} [DecidableEq α] : List α → List α
  | [] => []
  | x :: xs => x :: (dedupFirst xs).filter fun y => decide (y ≠ x)

/-- Association-list lookup with default `0`: models both
`dict.get(k, 0.0)` and reading a joined column after `fillna(0.0)`. -/
def lookupD : List (String × ℚ) → String → ℚ
  | [], _ => 0
  | p :: ps, c => if p.1 = c then p.2 else lookupD ps c

/-- `Series.max(skipna=True)`: maximum of the parseable entries,
`none` when every entry is `NaN`. -/
def maxSome : List (Option ℚ) → Option ℚ
  | [] => none
  | none :: rest => maxSome rest
  | some x :: rest =>
    match maxSome rest with
    | none => some x
    | some m => some (max x m)

/-- The whitespace set of Python `str.strip()` (ASCII part). -/
def isPySpace (c : Char) : Bool :=
  c == ' ' || c == '\t' || c == '\n' || c == '\r' || c == '\x0b' || c == '\x0c'

/-- Python `str.strip()`: drop leading and trailing whitespace. -/
def trimChars (l : List Char) : List Char :=
  ((l.dropWhile isPySpace).reverse.dropWhile isPySpace).reverse

/-- The regex replacement `.str.replace(r"\.0$", "", regex=True)`:
remove one trailing `".0"` when present. -/
def stripDot0 (l : List Char) : List Char :=
  if l.reverse.take 2 = ['0', '.'] then (l.reverse.drop 2).reverse else l

/-- `_normalize_code` on one cell (already coerced to a string by
`astype(str)`): strip surrounding whitespace, then drop a trailing `".0"`. -/
def normalize_code (l : List Char) : List Char :=
  stripDot0 (trimChars l)

/-- `_normalize_code` as a `String → String` map over the code column. -/
def normalize_code_str (s : String) : String :=
  String.mk (normalize_code s.data)

/-- `_to_fraction` on a weight column, modelled after the string munging and
`pd.to_numeric(..., errors="coerce")`: each cell is the parse result
(`none` = NaN).  Take the NaN-skipping maximum; when it exists and exceeds
`1`, divide every parsed value by `100` (NaN stays NaN); finally
`fillna(0.0)`. -/
def to_fraction (col : List (Option ℚ)) : List ℚ :=
  let s1 :=
    match maxSome col with
    | some m => if 1 < m then col.map (Option.map fun x => x / 100) else col
    | none => col
  s1.map fun o => o.getD 0

/-- `read_one` lines 86–91: pair the normalized code column with the
normalized weight column and keep rows with a non-empty code and a
strictly positive weight. -/
def kept (rows : List (String × Option ℚ)) : List (String × ℚ) :=
  ((rows.map fun r => normalize_code_str r.1).zip
    (to_fraction (rows.map Prod.snd))).filter
      fun p => decide (p.1 ≠ "") && decide (0 < p.2)

/-- `groupby(CODE_COL, as_index=False)[WEIGHT_COL].sum()`: one row per
distinct code (keys sorted, pandas groupby default `sort=True`), weight =
sum of that code's weights. -/
def groupbySum (l : List (String × ℚ)) : List (String × ℚ) :=
  (sortByLt strLt (dedupFirst (l.map Prod.fst))).map fun c =>
    (c, ((l.filter fun p => decide (p.1 = c)).map Prod.snd).sum)

/-- `read_one` after the file was decoded into a raw (code, weight-cell)
table: normalize, filter, and merge duplicate codes (lines 86–93). -/
def read_one_core (rows : List (String × Option ℚ)) : List (String × ℚ) :=
  groupbySum (kept rows)

/-- A fund's cleaned table: (code, weight) rows. -/
abbrev FundTable := List (String × ℚ)

/-- The `ETF_WEIGHTS` configuration: `"equal"` or an explicit mapping. -/
inductive WeightSetting where
  | equal : WeightSetting
  | explicitMap : List (String × ℚ) → WeightSetting

/-- The error raised when an explicit scheme sums to `≤ 0`
(`ValueError` at line 118; `InvalidWeightingScheme` in the spec). -/
inductive WeightError where
  | invalidWeightingScheme : WeightError
deriving DecidableEq

/-- `normalize_weights` (lines 111–119).  The dict comprehensions are
modelled by mapping over the first-occurrence-deduplicated name list. -/
def normalize_weights (etf_names : List String) :
    WeightSetting → Except WeightError (List (String × ℚ))
  | .equal =>
    let n : ℚ := if etf_names.length = 0 then 1 else (etf_names.length : ℚ)
    .ok ((dedupFirst etf_names).map fun name => (name, 1 / n))
  | .explicitMap setting =>
    let w := (dedupFirst etf_names).map fun name => (name, lookupD setting name)
    let s := (w.map Prod.snd).sum
    if s ≤ 0 then .error .invalidWeightingScheme
    else .ok (w.map fun p => (p.1, p.2 / s))

/-- One output row of the aggregation (the per-fund columns of the final
frame are recoverable from `tables`, and `total_weight_pct` is a display
convenience derived from `total_weight`; neither carries extra state). -/
structure PortfolioRow where
  code : String
  total_weight : ℚ
  appear_in : ℕ
deriving DecidableEq

/-- Code universe built by the chain of `pd.merge(..., how="outer",
on=CODE_COL)` calls (line 136): keys of the accumulated frame in order,
then the unmatched keys of the next table in its order. -/
def joinCodesAux : List String → List (String × FundTable) → List String
  | acc, [] => acc
  | acc, nt :: ts =>
    joinCodesAux (acc ++ (nt.2.map Prod.fst).filter fun c => decide (c ∉ acc)) ts

/-- Codes of the full outer join of all fund tables, in join order. -/
def joinCodes (tables : List (String × FundTable)) : List String :=
  joinCodesAux [] tables

/-- One joined row for code `c` (lines 137–146): per-fund cell =
`fillna(0.0)` lookup; `total_weight` accumulates column × `w.get(name, 0.0)`;
`appear_in` counts strictly positive per-fund cells. -/
def mkRow (tables : List (String × FundTable)) (w : List (String × ℚ))
    (c : String) : PortfolioRow :=
  { code := c
    total_weight := (tables.map fun nt => lookupD nt.2 c * lookupD w nt.1).sum
    appear_in := tables.countP fun nt => decide (0 < lookupD nt.2 c) }

/-- The joined frame before sorting, in the outer join's natural order. -/
def joinRows (tables : List (String × FundTable)) (w : List (String × ℚ)) :
    List PortfolioRow :=
  (joinCodes tables).map (mkRow tables w)

/-- `combine_weighted` (lines 121–147), parameterized by the resolved
scheme weights `w`: empty input short-circuits (line 122); otherwise sort
the joined rows by `total_weight` descending —
`sort_values(ascending=False)` = reverse of a stable ascending argsort. -/
def combine_weighted (tables : List (String × FundTable))
    (w : List (String × ℚ)) : List PortfolioRow :=
  if tables.isEmpty then []
  else
    (sortByLt (fun a b => decide (a.total_weight < b.total_weight))
      (joinRows tables w)).reverse

/-- Result of one recovery-read attempt. -/
inductive ReadResult where
  | ok : ReadResult
  | failed : ReadResult
deriving DecidableEq

/-- Control-flow model of `_read_xlsx_without_styles` (lines 29–44).
The temporary file is created on disk (`NamedTemporaryFile(delete=False)`)
before the archive members are copied.  `rebuildOk` = the copy loop inside
the `with` block succeeds; `readOk` = `pd.read_excel` on the rebuilt file
succeeds; `removeOk` = `os.remove` succeeds (its failure is swallowed by
`except Exception: pass`).  Returns the attempt's outcome and whether the
temporary file is still on disk afterwards.  The `try/finally` protecting
`os.remove` begins only after the rebuild completed, so a rebuild failure
exits with the temporary file still present. -/
def read_xlsx_without_styles (rebuildOk readOk removeOk : Bool) :
    ReadResult × Bool :=
  if rebuildOk = false then
    (.failed, true)
  else
    ((if readOk then ReadResult.ok else ReadResult.failed), !removeOk)

/-! ### Generic lemmas about the list utilities -/

theorem mem_dedupFirst {α : Type} [DecidableEq α] (a : α) :
    ∀ l : List α, a ∈ dedupFirst l ↔ a ∈ l := by
  intro l
  induction l with
  | nil => simp [dedupFirst]
  | cons x xs ih =>
    simp only [dedupFirst, List.mem_cons, List.mem_filter, ih, decide_eq_true_eq]
    by_cases hax : a = x <;> simp [hax]

theorem nodup_dedupFirst {α : Type} [DecidableEq α] :
    ∀ l : List α, (dedupFirst l).Nodup := by
  intro l
  induction l with
  | nil => simp [dedupFirst]
  | cons x xs ih =>
    refine List.nodup_cons.mpr ⟨?_, ih.filter _⟩
    intro hx
    have := (List.mem_filter.mp hx).2
    simp at this

theorem dedupFirst_eq_self {α : Type} [DecidableEq α] :
    ∀ l : List α, l.Nodup → dedupFirst l = l := by
  intro l
  induction l with
  | nil => intro _; rfl
  | cons x xs ih =>
    intro h
    rcases List.nodup_cons.mp h with ⟨hx, hxs⟩
    rw [dedupFirst, ih hxs, List.filter_eq_self.mpr]
    intro y hy
    simp only [decide_eq_true_eq]
    intro hyx
    exact hx (hyx ▸ hy)

theorem lookupD_mem :
    ∀ (t : List (String × ℚ)) (c : String), c ∈ t.map Prod.fst →
      ∃ p, p ∈ t ∧ p.1 = c ∧ lookupD t c = p.2 := by
  intro t
  induction t with
  | nil => intro c hc; simp at hc
  | cons p ps ih =>
    intro c hc
    by_cases h : p.1 = c
    · exact ⟨p, List.mem_cons_self _ _, h, by simp [lookupD, h]⟩
    · rcases List.mem_map.mp hc with ⟨q, hq, hqc⟩
      rcases List.mem_cons.mp hq with rfl | hq2
      · exact absurd hqc h
      · rcases ih c (List.mem_map.mpr ⟨q, hq2, hqc⟩) with ⟨r, hr, hrc, hrl⟩
        exact ⟨r, List.mem_cons_of_mem _ hr, hrc, by simp [lookupD, h, hrl]⟩

theorem lookupD_nonneg :
    ∀ (t : List (String × ℚ)), (∀ p ∈ t, 0 ≤ p.2) → ∀ c, 0 ≤ lookupD t c := by
  intro t
  induction t with
  | nil => intro _ c; exact le_refl 0
  | cons p ps ih =>
    intro h c
    rw [lookupD]
    split
    · exact h p (List.mem_cons_self _ _)
    · exact ih (fun q hq => h q (List.mem_cons_of_mem _ hq)) c

theorem list_sum_div (l : List ℚ) (s : ℚ) :
    (l.map fun x => x / s).sum = l.sum / s := by
  induction l with
  | nil => simp
  | cons x xs ih => simp [ih, add_div]

theorem list_sum_const {α : Type} (l : List α) (c : ℚ) :
    (l.map fun _ => c).sum = (l.length : ℚ) * c := by
  induction l with
  | nil => simp
  | cons x xs ih =>
    simp only [List.map_cons, List.sum_cons, ih, List.length_cons]
    push_cast
    ring

theorem list_sum_nonneg (l : List ℚ) (h : ∀ x ∈ l, 0 ≤ x) : 0 ≤ l.sum := by
  induction l with
  | nil => simp
  | cons x xs ih =>
    simp only [List.sum_cons]
    exact add_nonneg (h x (List.mem_cons_self _ _))
      (ih fun y hy => h y (List.mem_cons_of_mem _ hy))

theorem list_sum_pos :
    ∀ l : List ℚ, l ≠ [] → (∀ x ∈ l, 0 < x) → 0 < l.sum := by
  intro l
  induction l with
  | nil => intro h; exact absurd rfl h
  | cons x xs ih =>
    intro _ h
    simp only [List.sum_cons]
    have hx := h x (List.mem_cons_self _ _)
    have hxs : 0 ≤ xs.sum :=
      list_sum_nonneg xs fun y hy => le_of_lt (h y (List.mem_cons_of_mem _ hy))
    linarith

theorem maxSome_eq_none :
    ∀ col : List (Option ℚ), maxSome col = none → ∀ o ∈ col, o = none := by
  intro col
  induction col with
  | nil => intro _ o ho; simp at ho
  | cons o rest ih =>
    intro h p hp
    cases o with
    | none =>
      rcases List.mem_cons.mp hp with rfl | hp2
      · rfl
      · exact ih h p hp2
    | some x =>
      cases hr : maxSome rest <;> simp [maxSome, hr] at h

theorem le_maxSome :
    ∀ (col : List (Option ℚ)) (x m : ℚ), some x ∈ col → maxSome col = some m → x ≤ m := by
  intro col
  induction col with
  | nil => intro x m hx; simp at hx
  | cons o rest ih =>
    intro x m hx hm
    rcases List.mem_cons.mp hx with ho | hx2
    · cases hr : maxSome rest with
      | none => rw [← ho, maxSome, hr] at hm; simp at hm; exact le_of_eq hm
      | some m2 =>
        rw [← ho, maxSome, hr] at hm
        simp at hm
        rw [← hm]
        exact le_max_left x m2
    · cases o with
      | none => rw [maxSome] at hm; exact ih x m hx2 hm
      | some y =>
        cases hr : maxSome rest with
        | none => exact absurd (maxSome_eq_none rest hr _ hx2) (by simp)
        | some m2 =>
          rw [maxSome, hr] at hm
          simp at hm
          rw [← hm]
          exact le_trans (ih x m2 hx2 hr) (le_max_right y m2)

theorem maxSome_mem :
    ∀ (col : List (Option ℚ)) (m : ℚ), maxSome col = some m → some m ∈ col := by
  intro col
  induction col with
  | nil => intro m hm; simp [maxSome] at hm
  | cons o rest ih =>
    intro m hm
    cases o with
    | none => rw [maxSome] at hm; exact List.mem_cons_of_mem _ (ih m hm)
    | some x =>
      cases hr : maxSome rest with
      | none =>
        rw [maxSome, hr] at hm; simp at hm
        simp [hm]
      | some m2 =>
        rw [maxSome, hr] at hm
        simp at hm
        rcases max_choice x m2 with hc | hc
        · rw [← hm, hc]; exact List.mem_cons_self _ _
        · rw [← hm, hc]; exact List.mem_cons_of_mem _ (ih m2 hr)

theorem mem_insertByLt {α : Type} (lt : α → α → Bool) (x : α) :
    ∀ (l : List α) (a : α), a ∈ insertByLt lt x l ↔ a = x ∨ a ∈ l := by
  intro l
  induction l with
  | nil => intro a; simp [insertByLt]
  | cons y ys ih =>
    intro a
    rw [insertByLt]
    split <;> (simp only [List.mem_cons, ih]; try tauto)

theorem perm_insertByLt {α : Type} (lt : α → α → Bool) (x : α) :
    ∀ l : List α, (insertByLt lt x l).Perm (x :: l) := by
  intro l
  induction l with
  | nil => exact List.Perm.refl _
  | cons y ys ih =>
    rw [insertByLt]
    split
    · exact ((ih.cons y).trans (List.Perm.swap x y ys))
    · exact List.Perm.refl _

theorem perm_sortByLt {α : Type} (lt : α → α → Bool) :
    ∀ l : List α, (sortByLt lt l).Perm l := by
  intro l
  induction l with
  | nil => exact List.Perm.refl _
  | cons x xs ih =>
    rw [sortByLt]
    exact (perm_insertByLt lt x (sortByLt lt xs)).trans (ih.cons x)

theorem pairwise_insertByLt {α : Type} (lt : α → α → Bool)
    (hco : ∀ a b c : α, lt a c = true → lt a b = true ∨ lt b c = true)
    (hasymm : ∀ a b : α, lt a b = true → lt b a = false) (x : α) :
    ∀ l : List α, l.Pairwise (fun a b => lt b a = false) →
      (insertByLt lt x l).Pairwise (fun a b => lt b a = false) := by
  intro l
  induction l with
  | nil => intro _; simp [insertByLt]
  | cons y ys ih =>
    intro h
    rcases List.pairwise_cons.mp h with ⟨hy, hys⟩
    rw [insertByLt]
    split
    case isTrue hyx =>
      refine List.pairwise_cons.mpr ⟨?_, ih hys⟩
      intro z hz
      rcases (mem_insertByLt lt x ys z).mp hz with rfl | hz2
      · exact hasymm y z hyx
      · exact hy z hz2
    case isFalse hyx =>
      refine List.pairwise_cons.mpr ⟨?_, h⟩
      intro z hz
      rcases List.mem_cons.mp hz with rfl | hz2
      · exact Bool.eq_false_iff.mpr (fun hc => hyx hc)
      · cases hzx : lt z x with
        | false => rfl
        | true =>
          rcases hco z y x hzx with hzy | hyx2
          · rw [hy z hz2] at hzy; exact absurd hzy (by simp)
          · exact absurd hyx2 hyx

theorem pairwise_sortByLt {α : Type} (lt : α → α → Bool)
    (hco : ∀ a b c : α, lt a c = true → lt a b = true ∨ lt b c = true)
    (hasymm : ∀ a b : α, lt a b = true → lt b a = false) :
    ∀ l : List α, (sortByLt lt l).Pairwise (fun a b => lt b a = false) := by
  intro l
  induction l with
  | nil => simp [sortByLt]
  | cons x xs ih =>
    rw [sortByLt]
    exact pairwise_insertByLt lt hco hasymm x _ ih

/-! ### Lemmas about the outer-join code universe -/

theorem mem_joinCodesAux :
    ∀ (ts : List (String × FundTable)) (acc : List String) (c : String),
      c ∈ joinCodesAux acc ts ↔ c ∈ acc ∨ ∃ nt ∈ ts, c ∈ nt.2.map Prod.fst := by
  intro ts
  induction ts with
  | nil => intro acc c; simp [joinCodesAux]
  | cons nt ts2 ih =>
    intro acc c
    rw [joinCodesAux, ih]
    simp only [List.mem_append, List.mem_filter, decide_eq_true_eq, List.mem_cons]
    constructor
    · rintro (((hacc | ⟨hmem, _⟩) ) | ⟨nt2, hnt2, hc⟩)
      · exact Or.inl hacc
      · exact Or.inr ⟨nt, Or.inl rfl, hmem⟩
      · exact Or.inr ⟨nt2, Or.inr hnt2, hc⟩
    · rintro (hacc | ⟨nt2, (rfl | hnt2), hc⟩)
      · exact Or.inl (Or.inl hacc)
      · by_cases hacc : c ∈ acc
        · exact Or.inl (Or.inl hacc)
        · exact Or.inl (Or.inr ⟨hc, hacc⟩)
      · exact Or.inr ⟨nt2, hnt2, hc⟩

theorem nodup_joinCodesAux :
    ∀ (ts : List (String × FundTable)) (acc : List String), acc.Nodup →
      (∀ nt ∈ ts, (nt.2.map Prod.fst).Nodup) → (joinCodesAux acc ts).Nodup := by
  intro ts
  induction ts with
  | nil => intro acc hacc _; exact hacc
  | cons nt ts2 ih =>
    intro acc hacc hts
    rw [joinCodesAux]
    refine ih _ ?_ fun nt2 hnt2 => hts nt2 (List.mem_cons_of_mem _ hnt2)
    refine hacc.append ((hts nt (List.mem_cons_self _ _)).filter _) ?_
    intro c hc hc2
    have := (List.mem_filter.mp hc2).2
    simp only [decide_eq_true_eq] at this
    exact this hc

theorem mem_joinCodes (tables : List (String × FundTable)) (c : String) :
    c ∈ joinCodes tables ↔ ∃ nt ∈ tables, c ∈ nt.2.map Prod.fst := by
  rw [joinCodes, mem_joinCodesAux]
  simp

theorem nodup_joinCodes (tables : List (String × FundTable))
    (h : ∀ nt ∈ tables, (nt.2.map Prod.fst).Nodup) : (joinCodes tables).Nodup :=
  nodup_joinCodesAux tables [] List.nodup_nil h

/-! ### Lemmas about code normalization -/

theorem trimChars_sublist (l : List Char) : List.Sublist (trimChars l) l := by
  have h1 : List.Sublist (l.dropWhile isPySpace) l := List.dropWhile_sublist _
  have h2 : List.Sublist ((l.dropWhile isPySpace).reverse.dropWhile isPySpace)
      (l.dropWhile isPySpace).reverse := List.dropWhile_sublist _
  have h3 := h2.reverse
  rw [List.reverse_reverse] at h3
  exact h3.trans h1

theorem stripDot0_sublist (l : List Char) : List.Sublist (stripDot0 l) l := by
  rw [stripDot0]
  split
  · have h1 : List.Sublist (l.reverse.drop 2) l.reverse := List.drop_sublist _ _
    have h2 := h1.reverse
    rw [List.reverse_reverse] at h2
    exact h2
  · exact List.Sublist.refl l

theorem normalize_code_sublist (l : List Char) : List.Sublist (normalize_code l) l :=
  (stripDot0_sublist (trimChars l)).trans (trimChars_sublist l)

/-! ### Case lemmas for the weight normalizer -/

theorem to_fraction_max_none (col : List (Option ℚ)) (h : maxSome col = none) :
    to_fraction col = col.map fun o => o.getD 0 := by
  simp only [to_fraction, h]

theorem to_fraction_max_le (col : List (Option ℚ)) (m : ℚ)
    (h : maxSome col = some m) (h1 : ¬ 1 < m) :
    to_fraction col = col.map fun o => o.getD 0 := by
  simp only [to_fraction, h, if_neg h1]

theorem to_fraction_max_gt (col : List (Option ℚ)) (m : ℚ)
    (h : maxSome col = some m) (h1 : 1 < m) :
    to_fraction col = col.map fun o => (Option.map (fun x => x / 100) o).getD 0 := by
  simp only [to_fraction, h, if_pos h1, List.map_map]
  rfl

theorem mem_filterMap_id (col : List (Option ℚ)) (x : ℚ) :
    x ∈ col.filterMap id ↔ some x ∈ col := by
  simp only [List.mem_filterMap, id_eq]
  constructor
  · rintro ⟨o, ho, rfl⟩; exact ho
  · intro h; exact ⟨some x, h, rfl⟩

/-! ### Lemmas about per-file deduplication -/

theorem groupbySum_keys (l : List (String × ℚ)) :
    (groupbySum l).map Prod.fst = sortByLt strLt (dedupFirst (l.map Prod.fst)) := by
  rw [groupbySum, List.map_map]
  exact List.map_id _

theorem mem_groupbySum (l : List (String × ℚ)) (c : String) (q : ℚ)
    (h : (c, q) ∈ groupbySum l) :
    c ∈ l.map Prod.fst
    ∧ q = ((l.filter fun p => decide (p.1 = c)).map Prod.snd).sum := by
  rcases List.mem_map.mp h with ⟨c2, hc2, heq⟩
  rcases Prod.mk.injEq _ _ _ _ ▸ heq with ⟨rfl, rfl⟩
  have hmem : c2 ∈ dedupFirst (l.map Prod.fst) :=
    ((perm_sortByLt strLt _).mem_iff).mp hc2
  exact ⟨(mem_dedupFirst c2 _).mp hmem, rfl⟩

theorem nodup_groupbySum_keys (l : List (String × ℚ)) :
    ((groupbySum l).map Prod.fst).Nodup := by
  rw [groupbySum_keys]
  exact ((perm_sortByLt strLt _).nodup_iff).mpr (nodup_dedupFirst _)

theorem mem_kept (rows : List (String × Option ℚ)) (p : String × ℚ)
    (h : p ∈ kept rows) : p.1 ≠ "" ∧ 0 < p.2 := by
  have h2 := (List.mem_filter.mp h).2
  simp only [Bool.and_eq_true, decide_eq_true_eq] at h2
  exact h2

/-! ### Claim C2 -/

/-- C2 counterexample: the claim "after weight normalization every
resulting value lies in [0, 1]" fails on the code: a column whose single
parsed value is 200 (e.g. the cell "200" or "200%") has max 200 > 1, is
divided by 100, and yields 2, which is outside [0, 1]. -/
theorem to_fraction_exceeds_unit_interval :
    to_fraction [some 200] = [2] ∧ ¬ ((2 : ℚ) ≤ 1) := by
  constructor
  · norm_num [to_fraction, maxSome]
  · norm_num

/-- C2 (amended): provided every parsed value of the column lies in
[0, 100], every value after normalization lies in [0, 1]; moreover
(unconditionally in the code, stated here under the same hypothesis)
whenever the maximum parsed value exceeds 1 every value in the column is
divided by exactly 100 — a single column-wide decision — and unparseable
cells become 0 rather than an error. -/
theorem to_fraction_bounds (col : List (Option ℚ))
    (h : ∀ x ∈ col.filterMap id, 0 ≤ x ∧ x ≤ 100) :
    (∀ y ∈ to_fraction col, 0 ≤ y ∧ y ≤ 1)
    ∧ (∀ m : ℚ, maxSome col = some m → 1 < m →
        to_fraction col = col.map fun o => (Option.map (fun x => x / 100) o).getD 0)
    ∧ (∀ i : ℕ, col[i]? = some none → (to_fraction col)[i]? = some 0) := by
  refine ⟨?_, ?_, ?_⟩
  · intro y hy
    rcases hm : maxSome col with _ | m
    · rw [to_fraction_max_none col hm] at hy
      rcases List.mem_map.mp hy with ⟨o, ho, rfl⟩
      cases o with
      | none => norm_num
      | some x => exact absurd (maxSome_eq_none col hm _ ho) (by simp)
    · by_cases h1 : 1 < m
      · rw [to_fraction_max_gt col m hm h1] at hy
        rcases List.mem_map.mp hy with ⟨o, ho, rfl⟩
        cases o with
        | none => show (0:ℚ) ≤ 0 ∧ (0:ℚ) ≤ 1; norm_num
        | some x =>
          have hx := h x ((mem_filterMap_id col x).mpr ho)
          show 0 ≤ x / 100 ∧ x / 100 ≤ 1
          constructor
          · exact div_nonneg hx.1 (by norm_num)
          · rw [div_le_one (by norm_num)]; linarith [hx.2]
      · rw [to_fraction_max_le col m hm h1] at hy
        rcases List.mem_map.mp hy with ⟨o, ho, rfl⟩
        cases o with
        | none => show (0:ℚ) ≤ 0 ∧ (0:ℚ) ≤ 1; norm_num
        | some x =>
          have hx := h x ((mem_filterMap_id col x).mpr ho)
          have hxm := le_maxSome col x m ho hm
          show 0 ≤ x ∧ x ≤ 1
          exact ⟨hx.1, le_trans hxm (not_lt.mp h1)⟩
  · intro m hm h1
    exact to_fraction_max_gt col m hm h1
  · intro i hi
    rcases hm : maxSome col with _ | m
    · rw [to_fraction_max_none col hm, List.getElem?_map, hi]; rfl
    · by_cases h1 : 1 < m
      · rw [to_fraction_max_gt col m hm h1, List.getElem?_map, hi]; rfl
      · rw [to_fraction_max_le col m hm h1, List.getElem?_map, hi]; rfl

/-- C2 witness: for the column [50, NaN] (all parsed values in [0, 100]),
the normalized value 1/2 lies in [0, 1] and the NaN cell became 0. -/
theorem to_fraction_bounds_witness :
    (0 ≤ (1 : ℚ)/2 ∧ (1 : ℚ)/2 ≤ 1) ∧ (to_fraction [some 50, none])[1]? = some 0 := by
  constructor
  · exact (to_fraction_bounds [some 50, none]
      (by norm_num [List.filterMap])).1 (1/2) (by norm_num [to_fraction, maxSome])
  · exact (to_fraction_bounds [some 50, none]
      (by norm_num [List.filterMap])).2.2 1 (by rfl)

/-! ### Claim C9 -/

/-- C9: unparseable (NaN) cells do not influence the percentage-vs-fraction
decision: the maximum is computed skipping NaN, so a column whose parseable
values are all ≤ 1 is left unscaled, with NaN entries becoming 0 only via
the final fillna. -/
theorem to_fraction_mixed_unscaled (col : List (Option ℚ))
    (h : ∀ x ∈ col.filterMap id, x ≤ 1) :
    to_fraction col = col.map fun o => o.getD 0 := by
  rcases hm : maxSome col with _ | m
  · exact to_fraction_max_none col hm
  · have hmem := maxSome_mem col m hm
    have hm1 : m ≤ 1 := h m ((mem_filterMap_id col m).mpr hmem)
    exact to_fraction_max_le col m hm (not_lt.mpr hm1)

/-- C9 witness: the column [NaN, 1/2] is left unscaled and its NaN becomes
0. -/
theorem to_fraction_mixed_unscaled_witness :
    to_fraction [none, some ((1 : ℚ)/2)] = [0, 1/2] := by
  rw [to_fraction_mixed_unscaled [none, some ((1 : ℚ)/2)]
    (by norm_num [List.filterMap])]
  rfl

/-! ### Claim C6 -/

/-- C6 counterexample: code normalization is not idempotent: "1.0.0"
normalizes to "1.0", which normalizes again to "1". -/
theorem normalize_code_not_idempotent :
    normalize_code (normalize_code ['1', '.', '0', '.', '0'])
      ≠ normalize_code ['1', '.', '0', '.', '0'] := by decide

/-- C6 (amended): normalization is idempotent exactly on those inputs whose
normalized form is itself a fixed point of whitespace trimming and of
trailing-".0" stripping; a second application can strip a further ".0"
(e.g. "1.0.0" → "1.0" → "1") or whitespace newly exposed at the end. -/
theorem normalize_code_idem_iff (l : List Char) :
    normalize_code (normalize_code l) = normalize_code l
      ↔ trimChars (normalize_code l) = normalize_code l
        ∧ stripDot0 (normalize_code l) = normalize_code l := by
  constructor
  · intro h
    have hd : stripDot0 (trimChars (normalize_code l)) = normalize_code l := h
    have hsub1 := trimChars_sublist (normalize_code l)
    have hsub2 := stripDot0_sublist (trimChars (normalize_code l))
    have hlen2 := hsub2.length_le
    rw [hd] at hlen2
    have htrim : trimChars (normalize_code l) = normalize_code l :=
      hsub1.eq_of_length (le_antisymm hsub1.length_le hlen2)
    refine ⟨htrim, ?_⟩
    calc stripDot0 (normalize_code l)
        = stripDot0 (trimChars (normalize_code l)) := by rw [htrim]
      _ = normalize_code l := hd
  · rintro ⟨h1, h2⟩
    calc normalize_code (normalize_code l)
        = stripDot0 (trimChars (normalize_code l)) := rfl
      _ = stripDot0 (normalize_code l) := by rw [h1]
      _ = normalize_code l := h2

/-! ### Claim C8 -/

/-- C8: the claim "the temporary reconstructed-archive file is deleted on
every exit path of the read attempt" fails on the code: when the archive
rebuild raises after the temporary file was created (e.g. a truncated zip
member), the function exits with the temporary file still on disk — the
try/finally guarding `os.remove` only wraps the `pd.read_excel` call.  On
the paths that do reach the finally block (second conjunct), the file is
removed. -/
theorem recovery_read_leaks_temp_on_rebuild_failure :
    ∀ readOk removeOk : Bool,
      read_xlsx_without_styles false readOk removeOk = (.failed, true)
      ∧ (read_xlsx_without_styles true readOk true).2 = false := by
  intro readOk removeOk
  constructor
  · rfl
  · cases readOk <;> rfl

/-! ### Claim C3 -/

/-- C3: for loaded fund names (distinct, as keys of the loaded-tables dict)
and an explicit weighting configuration, resolution fails with
`InvalidWeightingScheme` exactly when the configured weights summed over
the loaded funds (absent funds counting 0) is ≤ 0; otherwise it returns a
mapping over exactly the loaded funds whose values are the configured
weights divided by that sum, and the values sum to 1. -/
theorem normalize_weights_explicit_spec (etf_names : List String)
    (setting : List (String × ℚ)) (hnd : etf_names.Nodup) :
    (normalize_weights etf_names (.explicitMap setting)
        = .error .invalidWeightingScheme
      ↔ (etf_names.map fun n => lookupD setting n).sum ≤ 0)
    ∧ (0 < (etf_names.map fun n => lookupD setting n).sum →
        normalize_weights etf_names (.explicitMap setting)
          = .ok (etf_names.map fun n =>
              (n, lookupD setting n / (etf_names.map fun n2 => lookupD setting n2).sum))
        ∧ (etf_names.map fun n =>
            lookupD setting n / (etf_names.map fun n2 => lookupD setting n2).sum).sum
            = 1) := by
  have hded : dedupFirst etf_names = etf_names := dedupFirst_eq_self _ hnd
  have hcond : List.map (Prod.snd ∘ fun name => (name, lookupD setting name)) etf_names
      = List.map (fun n => lookupD setting n) etf_names := rfl
  by_cases hle : (etf_names.map fun n => lookupD setting n).sum ≤ 0
  · have he : normalize_weights etf_names (.explicitMap setting)
        = .error .invalidWeightingScheme := by
      simp only [normalize_weights, hded, List.map_map, hcond]
      rw [if_pos hle]
    refine ⟨by simp [he, hle], fun hpos => absurd hpos (by linarith)⟩
  · have hpos := not_le.mp hle
    have hok : normalize_weights etf_names (.explicitMap setting)
        = .ok (etf_names.map fun n =>
            (n, lookupD setting n / (etf_names.map fun n2 => lookupD setting n2).sum)) := by
      simp only [normalize_weights, hded, List.map_map, hcond]
      rw [if_neg hle]
      rfl
    refine ⟨by simp [hok, hle], fun _ => ⟨hok, ?_⟩⟩
    have hcomp : (etf_names.map fun n =>
          lookupD setting n / (etf_names.map fun n2 => lookupD setting n2).sum)
        = (etf_names.map fun n => lookupD setting n).map
            fun x => x / (etf_names.map fun n2 => lookupD setting n2).sum :=
      (List.map_map (fun x => x / (etf_names.map fun n2 => lookupD setting n2).sum)
        (fun n => lookupD setting n) etf_names).symm
    rw [hcomp, list_sum_div, div_self (ne_of_gt hpos)]

/-- C3 witness (Scenario C): the explicit scheme {fundA ↦ 2, fundB ↦ 0}
over loaded funds [fundA, fundB] resolves to {fundA ↦ 1, fundB ↦ 0}. -/
theorem normalize_weights_explicit_spec_witness :
    normalize_weights ["fundA", "fundB"] (.explicitMap [("fundA", 2), ("fundB", 0)])
      = .ok [("fundA", 1), ("fundB", 0)] := by
  have e1 : ("fundA" = "fundA") = True := by decide
  have e2 : ("fundA" = "fundB") = False := by decide
  have e3 : ("fundB" = "fundB") = True := by decide
  have hsum : ((["fundA", "fundB"].map
      fun n => lookupD [("fundA", 2), ("fundB", 0)] n)).sum = 2 := by
    norm_num [lookupD, e1, e2, e3]
  have h := (normalize_weights_explicit_spec ["fundA", "fundB"]
    [("fundA", 2), ("fundB", 0)] (by decide)).2 (by rw [hsum]; norm_num)
  rw [h.1]
  norm_num [lookupD, hsum, e1, e2, e3]

/-! ### Claim C7 -/

/-- C7: the equal scheme assigns every loaded fund exactly 1/N (N = number
of loaded funds), the assigned weights sum exactly to 1 when N ≥ 1, and
N = 0 yields the empty mapping with no division by zero. -/
theorem normalize_weights_equal_spec (etf_names : List String)
    (hnd : etf_names.Nodup) :
    normalize_weights etf_names .equal
      = .ok (etf_names.map fun n => (n, 1 / (etf_names.length : ℚ)))
    ∧ (etf_names ≠ [] →
        (etf_names.map fun _ => 1 / (etf_names.length : ℚ)).sum = 1) := by
  constructor
  · by_cases hne : etf_names = []
    · subst hne; rfl
    · have hlen : etf_names.length ≠ 0 := by
        simpa [List.length_eq_zero] using hne
      simp only [normalize_weights, dedupFirst_eq_self _ hnd, if_neg hlen]
  · intro hne
    have hlen : (etf_names.length : ℚ) ≠ 0 :=
      Nat.cast_ne_zero.mpr (by simpa [List.length_eq_zero] using hne)
    rw [list_sum_const]
    field_simp

/-- C7 witness: two loaded funds each receive 1/2 and the weights sum
to 1. -/
theorem normalize_weights_equal_spec_witness :
    normalize_weights ["a", "b"] .equal = .ok [("a", 1/2), ("b", 1/2)]
    ∧ (["a", "b"].map fun _ => 1 / ((["a", "b"].length : ℚ))).sum = 1 := by
  have h := normalize_weights_equal_spec ["a", "b"] (by decide)
  constructor
  · rw [h.1]; norm_num
  · exact h.2 (by decide)

/-! ### Membership in the aggregator output -/

theorem combine_weighted_nil (w : List (String × ℚ)) :
    combine_weighted [] w = [] := rfl

theorem combine_weighted_cons (nt : String × FundTable)
    (ts : List (String × FundTable)) (w : List (String × ℚ)) :
    combine_weighted (nt :: ts) w
      = (sortByLt (fun a b => decide (a.total_weight < b.total_weight))
          (joinRows (nt :: ts) w)).reverse := by
  simp [combine_weighted]

theorem mem_combine_weighted (tables : List (String × FundTable))
    (w : List (String × ℚ)) (r : PortfolioRow) :
    r ∈ combine_weighted tables w ↔ r ∈ joinRows tables w := by
  cases tables with
  | nil => simp [combine_weighted_nil, joinRows, joinCodes, joinCodesAux]
  | cons nt ts =>
    rw [combine_weighted_cons, List.mem_reverse, (perm_sortByLt _ _).mem_iff]

/-! ### Claim C4 -/

/-- C4 counterexample: the claim that duplicate codes are merged by summing
their normalized weights before the zero-weight filtering is finalized
fails: for a code duplicated with normalized weights 0.05 and −0.05 the sum
of its normalized weights is 0 (second conjunct), so under the claim the
merged row would carry weight 0 and be dropped by the `> 0` rule, but the
code filters the −0.05 row away first and emits the row with weight 0.05
(first conjunct). -/
theorem read_one_filters_before_summing :
    read_one_core [("X", some (1/20)), ("X", some (-(1/20)))] = [("X", 1/20)]
    ∧ (to_fraction [some ((1 : ℚ)/20), some (-(1/20))]).sum = 0 := by
  constructor
  · have e1 : ("X" = "") = False := by decide
    have e2 : ("X" = "X") = True := by decide
    have h : normalize_code_str "X" = "X" := by decide
    norm_num [read_one_core, groupbySum, kept, to_fraction, maxSome, sortByLt,
      insertByLt, dedupFirst, h, List.filter, e1, e2]
  · norm_num [to_fraction, maxSome]

/-- C4 (amended): within one file, rows with empty code or non-positive
normalized weight are dropped first, and duplicate codes among the
surviving rows are then merged by summation: the output has pairwise
distinct codes, each present among the surviving rows, with weight equal
to the sum of that code's surviving weights (so 0.02 and 0.03 still merge
to 0.05). -/
theorem read_one_merges_after_filter (rows : List (String × Option ℚ)) :
    ((read_one_core rows).map Prod.fst).Nodup
    ∧ ∀ c q, (c, q) ∈ read_one_core rows →
        c ∈ (kept rows).map Prod.fst
        ∧ q = (((kept rows).filter fun p => decide (p.1 = c)).map Prod.snd).sum := by
  exact ⟨nodup_groupbySum_keys _, fun c q h => mem_groupbySum _ c q h⟩

/-- C4 witness: for a code appearing twice with weights 0.02 and 0.03, the
single output row carries weight 0.05, the sum over the surviving
duplicate rows. -/
theorem read_one_merges_after_filter_witness :
    "X" ∈ (kept [("X", some (2/100)), ("X", some (3/100))]).map Prod.fst
    ∧ (1 : ℚ)/20 = (((kept [("X", some (2/100)), ("X", some (3/100))]).filter
        fun p => decide (p.1 = "X")).map Prod.snd).sum := by
  refine (read_one_merges_after_filter
    [("X", some (2/100)), ("X", some (3/100))]).2 "X" (1/20) ?_
  have e1 : ("X" = "") = False := by decide
  have e2 : ("X" = "X") = True := by decide
  have h : normalize_code_str "X" = "X" := by decide
  norm_num [read_one_core, groupbySum, kept, to_fraction, maxSome, sortByLt,
    insertByLt, dedupFirst, h, List.filter, e1, e2]

/-! ### Claim C10 -/

/-- C10: every row of a cleaned per-file table has a non-empty code and a
strictly positive weight (first conjunct); and when every fund-table entry
is strictly positive and every resolved scheme weight is non-negative,
every aggregator output row satisfies appear_in ≥ 1 and total_weight ≥ 0
(second conjunct). -/
theorem output_rows_invariant (tables : List (String × FundTable))
    (w : List (String × ℚ))
    (hpos : ∀ nt ∈ tables, ∀ p ∈ nt.2, 0 < p.2)
    (hw : ∀ q ∈ w, 0 ≤ q.2) :
    (∀ rows : List (String × Option ℚ), ∀ p ∈ read_one_core rows,
        p.1 ≠ "" ∧ 0 < p.2)
    ∧ ∀ r ∈ combine_weighted tables w, 1 ≤ r.appear_in ∧ 0 ≤ r.total_weight := by
  constructor
  · intro rows p hp
    obtain ⟨c, q⟩ := p
    have h2 := mem_groupbySum _ c q hp
    rcases List.mem_map.mp h2.1 with ⟨p0, hp0, hp0c⟩
    have hk := mem_kept rows p0 hp0
    constructor
    · show c ≠ ""
      rw [← hp0c]; exact hk.1
    · show 0 < q
      rw [h2.2]
      apply list_sum_pos
      · have hmem : p0 ∈ (kept rows).filter fun p2 => decide (p2.1 = c) :=
          List.mem_filter.mpr ⟨hp0, by simp [hp0c]⟩
        intro hnil
        rw [List.map_eq_nil_iff] at hnil
        rw [hnil] at hmem
        simp at hmem
      · intro x hx
        rcases List.mem_map.mp hx with ⟨p1, hp1, rfl⟩
        exact (mem_kept rows p1 (List.mem_filter.mp hp1).1).2
  · intro r hr
    rcases List.mem_map.mp ((mem_combine_weighted tables w r).mp hr) with ⟨c, hc, rfl⟩
    constructor
    · rcases (mem_joinCodes tables c).mp hc with ⟨nt, hnt, hcnt⟩
      rcases lookupD_mem nt.2 c hcnt with ⟨p, hp, hpc, hpl⟩
      have hlpos : 0 < lookupD nt.2 c := by rw [hpl]; exact hpos nt hnt p hp
      show 1 ≤ tables.countP fun nt2 => decide (0 < lookupD nt2.2 c)
      exact List.countP_pos_iff.mpr ⟨nt, hnt, decide_eq_true hlpos⟩
    · show 0 ≤ (tables.map fun nt => lookupD nt.2 c * lookupD w nt.1).sum
      apply list_sum_nonneg
      intro x hx
      rcases List.mem_map.mp hx with ⟨nt, hnt, rfl⟩
      exact mul_nonneg
        (lookupD_nonneg nt.2 (fun p hp => le_of_lt (hpos nt hnt p hp)) c)
        (lookupD_nonneg w (fun q hq => hw q hq) nt.1)

/-- C10 witness: for one fund {A ↦ 1/2} with scheme weight 1, the single
output row has appear_in = 1 ≥ 1 and total_weight = 1/2 ≥ 0. -/
theorem output_rows_invariant_witness :
    1 ≤ (PortfolioRow.mk "A" (1/2) 1).appear_in
    ∧ 0 ≤ (PortfolioRow.mk "A" (1/2) 1).total_weight := by
  apply (output_rows_invariant [("f", [("A", (1 : ℚ)/2)])] [("f", 1)]
    (by norm_num) (by norm_num)).2
  have e1 : ("f" = "f") = True := by decide
  have e2 : ("A" = "A") = True := by decide
  norm_num [combine_weighted, joinRows, joinCodes, joinCodesAux, mkRow, lookupD,
    sortByLt, insertByLt, List.countP, List.countP.go, e1, e2]

/-! ### Claim C1 -/

/-- C1: for fund tables with unique per-table codes (as produced by the
per-file deduplication) and any resolved fund weights, the aggregator
output has exactly one row per security code appearing in any fund table
(codes pairwise distinct, membership iff the code appears in some fund),
and every output row satisfies: total_weight is the dot product of the
per-fund weight vector (0 for absent funds) with the scheme-weight vector,
and appear_in is the number of funds whose weight for that code is
strictly positive. -/
theorem combine_weighted_correct (tables : List (String × FundTable))
    (w : List (String × ℚ))
    (hnd : ∀ nt ∈ tables, (nt.2.map Prod.fst).Nodup) :
    ((combine_weighted tables w).map PortfolioRow.code).Nodup
    ∧ (∀ c : String, c ∈ (combine_weighted tables w).map PortfolioRow.code ↔
        ∃ nt ∈ tables, c ∈ nt.2.map Prod.fst)
    ∧ ∀ r ∈ combine_weighted tables w,
        r.total_weight
          = (tables.map fun nt => lookupD nt.2 r.code * lookupD w nt.1).sum
        ∧ r.appear_in = tables.countP fun nt => decide (0 < lookupD nt.2 r.code) := by
  have hperm : (combine_weighted tables w).Perm (joinRows tables w) := by
    cases tables with
    | nil => rw [combine_weighted_nil]; exact List.Perm.refl _
    | cons nt ts =>
      rw [combine_weighted_cons]
      exact (List.reverse_perm _).trans (perm_sortByLt _ _)
  have hmapcode : (joinRows tables w).map PortfolioRow.code = joinCodes tables := by
    rw [joinRows, List.map_map]
    exact List.map_id _
  have hpermcode :
      ((combine_weighted tables w).map PortfolioRow.code).Perm (joinCodes tables) := by
    rw [← hmapcode]
    exact hperm.map _
  refine ⟨?_, ?_, ?_⟩
  · exact (hpermcode.nodup_iff).mpr (nodup_joinCodes tables hnd)
  · intro c
    rw [hpermcode.mem_iff, mem_joinCodes]
  · intro r hr
    rcases List.mem_map.mp ((mem_combine_weighted tables w r).mp hr) with ⟨c, hc, rfl⟩
    exact ⟨rfl, rfl⟩

/-- C1 witness (Scenario A of the spec): two funds with codes {X, Y} and
equal scheme weights 1/2 give one row per code, no duplicates, and
total_weight X = 9/20, Y = 11/20, appear_in = 2 for both, sorted Y first. -/
theorem combine_weighted_correct_witness :
    ((combine_weighted
        [("f1", [("X", (3:ℚ)/5), ("Y", (2:ℚ)/5)]),
          ("f2", [("X", (3:ℚ)/10), ("Y", (7:ℚ)/10)])]
        [("f1", 1/2), ("f2", 1/2)]).map PortfolioRow.code).Nodup
    ∧ combine_weighted
        [("f1", [("X", (3:ℚ)/5), ("Y", (2:ℚ)/5)]),
          ("f2", [("X", (3:ℚ)/10), ("Y", (7:ℚ)/10)])]
        [("f1", 1/2), ("f2", 1/2)]
        = [⟨"Y", 11/20, 2⟩, ⟨"X", 9/20, 2⟩] := by
  constructor
  · exact (combine_weighted_correct _ _ (by decide)).1
  · have e1 : ("X" = "Y") = False := by decide
    have e2 : ("Y" = "X") = False := by decide
    have e3 : ("X" = "X") = True := by decide
    have e4 : ("Y" = "Y") = True := by decide
    have e5 : ("f1" = "f2") = False := by decide
    have e6 : ("f2" = "f1") = False := by decide
    have e7 : ("f1" = "f1") = True := by decide
    have e8 : ("f2" = "f2") = True := by decide
    norm_num [combine_weighted, joinRows, joinCodes, joinCodesAux, mkRow, lookupD,
      sortByLt, insertByLt, List.countP, List.countP.go, List.filter,
      e1, e2, e3, e4, e5, e6, e7, e8]

/-! ### Claim C5 -/

/-- C5 counterexample: ties are not left in the join's natural order: for
one fund with two equally weighted codes the join order is [A, B] (first
conjunct) but the output rows, tied at total_weight 1/2, come out [B, A]
(second conjunct) — pandas realises the descending sort by reversing a
stable ascending argsort, which reverses tied runs. -/
theorem combine_weighted_tie_not_natural :
    joinCodes [("f", [("A", (1:ℚ)/2), ("B", (1:ℚ)/2)])] = ["A", "B"]
    ∧ combine_weighted [("f", [("A", (1:ℚ)/2), ("B", (1:ℚ)/2)])] [("f", 1)]
      = [⟨"B", 1/2, 1⟩, ⟨"A", 1/2, 1⟩] := by
  constructor
  · decide
  · have e1 : ("A" = "B") = False := by decide
    have e2 : ("B" = "A") = False := by decide
    have e3 : ("A" = "A") = True := by decide
    have e4 : ("B" = "B") = True := by decide
    have e5 : ("f" = "f") = True := by decide
    norm_num [combine_weighted, joinRows, joinCodes, joinCodesAux, mkRow, lookupD,
      sortByLt, insertByLt, List.countP, List.countP.go, List.filter,
      e1, e2, e3, e4, e5]

/-- C5 (amended): the aggregator output is sorted by total_weight in
descending order and is a permutation of the outer join's rows; rows with
equal total_weight are however not guaranteed to keep the join's natural
order (the modelled pandas descending sort reverses tied runs, and for
large frames numpy's default quicksort gives no order guarantee at all). -/
theorem combine_weighted_sorted (tables : List (String × FundTable))
    (w : List (String × ℚ)) :
    List.Pairwise (fun a b : PortfolioRow => b.total_weight ≤ a.total_weight)
      (combine_weighted tables w)
    ∧ (combine_weighted tables w).Perm (joinRows tables w) := by
  constructor
  · cases tables with
    | nil => rw [combine_weighted_nil]; exact List.Pairwise.nil
    | cons nt ts =>
      rw [combine_weighted_cons, List.pairwise_reverse]
      have hp := pairwise_sortByLt
        (fun a b : PortfolioRow => decide (a.total_weight < b.total_weight))
        (fun a b c hac => by
          simp only [decide_eq_true_eq] at hac ⊢
          rcases lt_or_le a.total_weight b.total_weight with h2 | h2
          · exact Or.inl h2
          · exact Or.inr (lt_of_le_of_lt h2 hac))
        (fun a b hab => by
          simp only [decide_eq_true_eq] at hab
          simpa using not_lt.mpr (le_of_lt hab))
        (joinRows (nt :: ts) w)
      refine hp.imp ?_
      intro a b h
      simpa using h
  · cases tables with
    | nil => rw [combine_weighted_nil]; exact List.Perm.refl _
    | cons nt ts =>
      rw [combine_weighted_cons]
      exact (List.reverse_perm _).trans (perm_sortByLt _ _)

end CombineEtf
